import Mathlib

/-!
Verification of the wikidump DOI extractor and bibliography pipeline.

This file embeds the core of `src/wikidump/extractors/doi.py` and
`src/wikidump/processors/bibliography_extractor.py` as executable Lean
definitions and proves the specified properties about them.

Texts are modelled as `List Char`.  The regex character classes `\w` and
`\s` (compiled with `re.U`) are modelled with the corresponding `Char`
predicates restricted to their ASCII behaviour; none of the proved
properties depends on the exact extent of these classes.
-/

namespace Wikidump

/-! ## Character classes of the lexicon patterns -/

/-- The class `[\n\r]` of the `break` lexicon pattern. -/
def isBreakChar (c : Char) : Bool := c = '\n' || c = '\r'

/-- The class `\s` (whitespace). -/
def isSpaceChar (c : Char) : Bool :=
  c = ' ' || c = '\t' || c = '\n' || c = '\r' || c = '\x0b' || c = '\x0c'

/-- The class `\w` (word characters). -/
def isWordChar (c : Char) : Bool := c.isAlphanum || c = '_'

/-- The class `[,\.;!]` of the `punct` lexicon pattern. -/
def isPunctChar (c : Char) : Bool := c = ',' || c = '.' || c = ';' || c = '!'

/-- The class `[\?#]` of the `url_end` lexicon pattern. -/
def isUrlEndChar (c : Char) : Bool := c = '?' || c = '#'

/-- The class `[\.,!]` of `_punctuation_at_end_re`. -/
def isTrailPunct (c : Char) : Bool := c = '.' || c = ',' || c = '!'

/-- The class `[^>\n\r]` inside `TAGS_RE`'s attribute group. -/
def isAttrChar (c : Char) : Bool := !(c = '>' || c = '\n' || c = '\r')

/-! ## Primitive matchers

Each matcher takes the remaining input and returns `some (txt, rest)`
where `txt` is the matched prefix (`match.group(0)`) and `rest` the
remaining input, or `none` when the pattern does not match at the start
of the input. -/

/-- Consume a literal character sequence, returning the rest. -/
def takeLit : List Char → List Char → Option (List Char)
  | [], s => some s
  | _ :: _, [] => none
  | c :: cs, d :: ds => if c = d then takeLit cs ds else none

/-- Consume a literal character sequence case-insensitively (`re.I`). -/
def takeLitCI : List Char → List Char → Option (List Char)
  | [], s => some s
  | _ :: _, [] => none
  | c :: cs, d :: ds => if c.toLower = d.toLower then takeLitCI cs ds else none

/-- Match a literal pattern such as `\(` or `<!--`. -/
def matchLit (lit : List Char) (s : List Char) : Option (List Char × List Char) :=
  match takeLit lit s with
  | some r => some (lit, r)
  | none => none

/-- Match a greedy non-empty run `p+` of a character class. -/
def matchRun (p : Char → Bool) (s : List Char) : Option (List Char × List Char) :=
  if (s.takeWhile p).isEmpty then none else some (s.takeWhile p, s.dropWhile p)

/-- Match a single character of a class, such as `[,\.;!]`. -/
def matchClass1 (p : Char → Bool) (s : List Char) : Option (List Char × List Char) :=
  match s with
  | [] => none
  | c :: r => if p c then some ([c], r) else none

/-- Match `.` (any character but a newline): the `etc` pattern. -/
def matchEtc (s : List Char) : Option (List Char × List Char) :=
  match s with
  | [] => none
  | c :: r => if c = '\n' then none else some ([c], r)

/-- `DOI_START_RE = re.compile(r'10\.[0-9]{4,}/')`.

`[0-9]{4,}` is greedy and a digit can never be `/`, so the pattern
matches exactly when the input starts with `10.`, followed by a maximal
digit run of length at least 4, followed by `/`. -/
def matchDoiStart (s : List Char) : Option (List Char × List Char) :=
  match takeLit ['1', '0', '.'] s with
  | none => none
  | some s1 =>
    if (s1.takeWhile Char.isDigit).length < 4 then none
    else
      match s1.dropWhile Char.isDigit with
      | '/' :: r => some ('1' :: '0' :: '.' :: (s1.takeWhile Char.isDigit ++ ['/']), r)
      | _ => none

/-- `HTML_TAGS` from the source, in order (the alternation order matters). -/
def HTML_TAGS : List (List Char) :=
  ["ref", "span", "div", "table", "h1", "h2", "h3", "h4", "h5", "h6",
   "b", "u", "i", "s", "ins", "del", "code", "tt", "blockquote",
   "pre"].map String.data

/-- The trailing `(\s[^>\n\r]+)?>` of `TAGS_RE`.  The optional group is
greedy: if the next character is whitespace the group must match (a
whitespace character followed by a non-empty maximal `[^>\n\r]` run
followed by `>`); backtracking into a shorter run cannot succeed because
every character of the run differs from `>`, and the empty-group
fallback needs `>` where the whitespace stands.  Otherwise the group is
empty and a `>` must follow directly. -/
def matchAttrsClose (s : List Char) : Option (List Char × List Char) :=
  match s with
  | [] => none
  | c :: r =>
    if isSpaceChar c then
      match r.dropWhile isAttrChar with
      | '>' :: r2 =>
        if (r.takeWhile isAttrChar).isEmpty then none
        else some (c :: (r.takeWhile isAttrChar ++ ['>']), r2)
      | _ => none
    else if c = '>' then some (['>'], r) else none

/-- Try the tag-name alternation of `TAGS_RE` in order; for each name
that matches (case-insensitively) the attribute/close part must follow,
otherwise the regex engine backtracks to the next alternative. -/
def tryTagNames : List (List Char) → List Char → Option (List Char × List Char)
  | [], _ => none
  | nm :: names, s =>
    match takeLitCI nm s with
    | some r =>
      (match matchAttrsClose r with
       | some (a, r2) => some (s.take nm.length ++ a, r2)
       | none => tryTagNames names s)
    | none => tryTagNames names s

/-- `TAGS_RE = re.compile(r'<(/\s*)?(' + '|'.join(HTML_TAGS) + ')(\s[^>\n\r]+)?>', re.I)`.

The optional `(/\s*)?` group is greedy: when a `/` follows the `<` the
group consumes it together with the maximal whitespace run (no tag name
starts with a whitespace character or `/`, so no other split can
succeed). -/
def matchTag (s : List Char) : Option (List Char × List Char) :=
  match s with
  | '<' :: '/' :: t =>
    let sp := t.takeWhile isSpaceChar
    (match tryTagNames HTML_TAGS (t.dropWhile isSpaceChar) with
     | some (body, r) => some ('<' :: '/' :: (sp ++ body), r)
     | none => none)
  | '<' :: s1 =>
    (match tryTagNames HTML_TAGS s1 with
     | some (body, r) => some ('<' :: body, r)
     | none => none)
  | _ => none

/-! ## The lexicon -/

/-- The token kinds of `LEXICON`, in source order.  `brk` is the
source's `break` token kind (`break` is a Lean keyword). -/
inductive TokenKind where
  | doi_start | open_paren | close_paren | open_bracket | close_bracket
  | comment_start | comment_end | tag | open_angle | close_angle
  | open_curly | close_curly | pipe | punct | url_end | brk
  | whitespace | word | etc
deriving DecidableEq, Repr

/-- One alternation step of the compiled `LEXICON` pattern: the
alternatives are tried in source order and the first that matches at
the current position wins. -/
def lexMatch (s : List Char) : Option (TokenKind × List Char × List Char) :=
  match matchDoiStart s with
  | some (t, r) => some (.doi_start, t, r)
  | none =>
  match matchLit ['('] s with
  | some (t, r) => some (.open_paren, t, r)
  | none =>
  match matchLit [')'] s with
  | some (t, r) => some (.close_paren, t, r)
  | none =>
  match matchLit ['['] s with
  | some (t, r) => some (.open_bracket, t, r)
  | none =>
  match matchLit [']'] s with
  | some (t, r) => some (.close_bracket, t, r)
  | none =>
  match matchLit ['<', '!', '-', '-'] s with
  | some (t, r) => some (.comment_start, t, r)
  | none =>
  match matchLit ['-', '-', '>'] s with
  | some (t, r) => some (.comment_end, t, r)
  | none =>
  match matchTag s with
  | some (t, r) => some (.tag, t, r)
  | none =>
  match matchLit ['<'] s with
  | some (t, r) => some (.open_angle, t, r)
  | none =>
  match matchLit ['>'] s with
  | some (t, r) => some (.close_angle, t, r)
  | none =>
  match matchLit ['\x7b'] s with
  | some (t, r) => some (.open_curly, t, r)
  | none =>
  match matchLit ['\x7d'] s with
  | some (t, r) => some (.close_curly, t, r)
  | none =>
  match matchLit ['|'] s with
  | some (t, r) => some (.pipe, t, r)
  | none =>
  match matchClass1 isPunctChar s with
  | some (t, r) => some (.punct, t, r)
  | none =>
  match matchClass1 isUrlEndChar s with
  | some (t, r) => some (.url_end, t, r)
  | none =>
  match matchRun isBreakChar s with
  | some (t, r) => some (.brk, t, r)
  | none =>
  match matchRun isSpaceChar s with
  | some (t, r) => some (.whitespace, t, r)
  | none =>
  match matchRun isWordChar s with
  | some (t, r) => some (.word, t, r)
  | none =>
  match matchEtc s with
  | some (t, r) => some (.etc, t, r)
  | none => none

/-- `tokenize_finditer(text, LEXICON)`: `finditer` of the alternation.
At a position where no alternative matches, `finditer` moves on by one
character without emitting anything (that branch is proved unreachable:
some alternative always matches).  The fuel argument bounds the
recursion; `s.length` steps always suffice because every iteration
consumes at least one character. -/
def tokenize_finditer_go : Nat → List Char → List (TokenKind × List Char)
  | 0, _ => []
  | _, [] => []
  | fuel + 1, s =>
    match lexMatch s with
    | some (k, t, r) => (k, t) :: tokenize_finditer_go fuel r
    | none => tokenize_finditer_go fuel (s.drop 1)

/-- `tokenize_finditer(text)` over the fixed `LEXICON`. -/
def tokenize_finditer (s : List Char) : List (TokenKind × List Char) :=
  tokenize_finditer_go s.length s

/-- The concatenation of the `text` fields of a token sequence. -/
def tokensText (ts : List (TokenKind × List Char)) : List Char :=
  (ts.map (fun t => t.2)).flatten

/-! ## Data model of `wikidump/extractors/common.py`

Modelled from the spec: `common.py` itself is not among the sources;
§3 of the spec gives `Identifier`, `Span` (half-open offsets; its `end`
field is called `stop` here because `end` is a Lean keyword) and
`CaptureResult`. -/

structure Identifier where
  kind : List Char
  id : List Char
deriving DecidableEq, Repr

structure Span where
  start : Nat
  stop : Nat
deriving DecidableEq, Repr

structure CaptureResult where
  value : Identifier
  span : Span
deriving DecidableEq, Repr

/-! ## `read_doi` -/

/-- The terminator token kinds of `read_doi`:
`('url_end', 'break', 'whitespace', 'tag', 'pipe', 'comment_start', 'comment_end')`. -/
def isTerminatorKind (k : TokenKind) : Bool :=
  match k with
  | .url_end | .brk | .whitespace | .tag | .pipe | .comment_start | .comment_end => true
  | _ => false

/-- The accumulation loop of `read_doi`: `depth['bracket']` and
`depth['curly']` are the two depth counters (the `defaultdict` holds no
other key), `buf` is `doi_buffer` joined, and the returned pair is the
accumulated buffer together with the unconsumed remainder of the token
stream. -/
def read_doi_go : Nat → Nat → List Char → List (TokenKind × List Char) →
    List Char × List (TokenKind × List Char)
  | _, _, buf, [] => (buf, [])
  | depthBracket, depthCurly, buf, (k, t) :: rest =>
    if isTerminatorKind k then (buf, (k, t) :: rest)
    else
      match k with
      | .open_bracket => read_doi_go (depthBracket + 1) depthCurly (buf ++ t) rest
      | .open_curly => read_doi_go depthBracket (depthCurly + 1) (buf ++ t) rest
      | .close_bracket =>
        if 0 < depthBracket then
          read_doi_go (depthBracket - 1) depthCurly (buf ++ t) rest
        else (buf, (k, t) :: rest)
      | .close_curly =>
        if 0 < depthCurly then
          read_doi_go depthBracket (depthCurly - 1) (buf ++ t) rest
        else (buf, (k, t) :: rest)
      | _ => read_doi_go depthBracket depthCurly (buf ++ t) rest

/-- Remove the maximal trailing run of characters satisfying `p`. -/
def dropTrailing (p : Char → Bool) (s : List Char) : List Char :=
  (s.reverse.dropWhile p).reverse

/-- `_punctuation_at_end_re.sub('', id_)` with pattern `[\.,!]+$`:
Python's `$` matches at the end of the string and also just before a
newline that ends the string, so a trailing-punctuation run standing
before a final newline is removed as well. -/
def punctuation_at_end_sub (s : List Char) : List Char :=
  if s.getLast? = some '\n' then dropTrailing isTrailPunct s.dropLast ++ ['\n']
  else dropTrailing isTrailPunct s

/-- `read_doi(tokens)`.  The Python function asserts that the stream
starts with a `doi_start` token and consumes tokens from the mutable
`peekable`; the unconsumed remainder is returned here as the second
component.  The empty-stream case is unreachable under the asserted
precondition. -/
def read_doi (tokens : List (TokenKind × List Char)) :
    Identifier × List (TokenKind × List Char) :=
  match tokens with
  | [] => (⟨"doi".data, []⟩, [])
  | (_, t) :: rest =>
    (⟨"doi".data, punctuation_at_end_sub (read_doi_go 0 0 t rest).1⟩,
     (read_doi_go 0 0 t rest).2)

/-! ## `extract_search` -/

/-- `DOI_START_RE.finditer(text)` as the list of `(start, end)` offset
pairs of its non-overlapping matches: at each position, if the pattern
matches, emit the match and continue after it, otherwise move on by one
character.  Fuel `text.length` suffices since the position strictly
increases. -/
def doi_finditer_go (text : List Char) : Nat → Nat → List (Nat × Nat)
  | 0, _ => []
  | fuel + 1, p =>
    if p < text.length then
      match matchDoiStart (text.drop p) with
      | some (t, _) => (p, p + t.length) :: doi_finditer_go text fuel (p + t.length)
      | none => doi_finditer_go text fuel (p + 1)
    else []

/-- All matches of `DOI_START_RE` over `text`, with their offsets. -/
def doi_finditer (text : List Char) : List (Nat × Nat) :=
  doi_finditer_go text text.length 0

/-- `tokenize_search(text, start)`: repeated `_lexicon_re.search` from
`start`.  The lexicon has no anchors or look-around, so searching the
full text from offset `start` coincides with scanning the suffix
(`_lexicon_re` is compiled without `re.M`, which is irrelevant for the
same reason). -/
def tokenize_search (text : List Char) (start : Nat) : List (TokenKind × List Char) :=
  tokenize_finditer (text.drop start)

/-- The loop of `extract_search`: walk the `DOI_START_RE` matches
keeping `last_end`; a match at `begin_pos` is extracted only when
`begin_pos > last_end`, otherwise `last_end` becomes
`max(match.end(), last_end)`. -/
def extract_search_go (text : List Char) : List (Nat × Nat) → Nat → List CaptureResult
  | [], _ => []
  | (begin_pos, match_end) :: ms, last_end =>
    if begin_pos > last_end then
      let identifier := (read_doi (tokenize_search text begin_pos)).1
      let end_pos := begin_pos + identifier.id.length
      ⟨identifier, ⟨begin_pos, end_pos⟩⟩ :: extract_search_go text ms end_pos
    else extract_search_go text ms (max match_end last_end)

/-- `extract_search(text)` (the module's `extract`). -/
def extract_search (text : List Char) : List CaptureResult :=
  extract_search_go text (doi_finditer text) 0

/-! ## The bibliography pipeline (`processors/bibliography_extractor.py`) -/

/-- Modelled from the spec: `extractors.misc.Section` is not among the
sources; §3 of the spec gives `{name, level, full_body}`. -/
structure Section where
  name : List Char
  level : Nat
  full_body : List Char
deriving DecidableEq, Repr

/-- An `mwxml.Revision` as consumed by the pipeline (only the accessed
fields are modelled; `timestamp` stands for the already-serialized
`timestamp.to_json()` value). -/
structure MwRevision where
  id : Nat
  parent_id : Option Nat
  user : Option (List Char)
  minor : Bool
  comment : List Char
  model : List Char
  format : List Char
  timestamp : List Char
  text : Option (List Char)
deriving DecidableEq, Repr

/-- An `mwxml.Page` as consumed by the pipeline.  The `ns` field is
the source's `namespace` field (`namespace` is a Lean keyword). -/
structure MwPage where
  id : Nat
  ns : Int
  title : List Char
  revisions : List MwRevision
deriving DecidableEq, Repr

/-- The output `Revision` named tuple. -/
structure Revision where
  id : Nat
  parent_id : Option Nat
  user : Option (List Char)
  minor : Bool
  comment : List Char
  model : List Char
  format : List Char
  timestamp : List Char
  text : List Char
  sections : List Section
deriving DecidableEq, Repr

/-- The output `Page` named tuple. -/
structure Page where
  id : Nat
  ns : Int
  title : List Char
  revisions : List Revision
deriving DecidableEq, Repr

/-- Modelled from the spec: the external collaborators of the pipeline
that are not among the sources — `utils.remove_comments` (a simple text
filter), `extractors.sections` (the wikitext section splitter; the call
site discards the second component of each yielded pair), the
fuzzywuzzy string-similarity scorer (a normalized 0–100 ratio) and the
`languages.bibliography` synonym table (language code to ordered
synonym list). -/
structure Externals where
  remove_comments : List Char → List Char
  sections_of : List Char → List Section
  scorer : List Char → List Char → Nat
  bibliography : List Char → List (List Char)

/-- `FUZZY_MATCH_CUTOFF = 91` (the default of `score_cutoff`). -/
def FUZZY_MATCH_CUTOFF : Nat := 91

/-- Modelled from the spec: `fuzzywuzzy.process.extractOne(query,
choices, score_cutoff)` returns the best-scoring `(choice, score)` pair
among the choices whose score reaches the cutoff (first wins ties), or
`None` when no choice qualifies. -/
def extractOne (scorer : List Char → List Char → Nat) (query : List Char)
    (choices : List (List Char)) (score_cutoff : Nat) : Option (List Char × Nat) :=
  (choices.map (fun c => (c, scorer query c))).foldl
    (fun best p =>
      if p.2 < score_cutoff then best
      else
        match best with
        | none => some p
        | some q => if q.2 < p.2 then some p else some q)
    none

/-- `is_bibliography(section_name, language, score_cutoff)`.  The
source decorates this function with `functools.lru_cache(maxsize=500)`;
the cache is modelled separately by `lru_lookup` and proved not to
change any result, so the pipeline below calls the plain function. -/
def is_bibliography (ext : Externals) (section_name language : List Char)
    (score_cutoff : Nat) : Bool :=
  (extractOne ext.scorer section_name (ext.bibliography language) score_cutoff).isSome

/-- The best fuzzy-match score of `query` against a list of choices. -/
def bestScore (scorer : List Char → List Char → Nat) (query : List Char)
    (choices : List (List Char)) : Nat :=
  (choices.map (scorer query)).foldl max 0

/-- A `functools.lru_cache`-style memo table: the list front is the
most recently used entry.  A hit moves the entry to the front; a miss
computes `f a`, inserts it at the front and evicts beyond the capacity. -/
def lru_lookup {α β : Type} [DecidableEq α] (f : α → β) (cap : Nat)
    (cache : List (α × β)) (a : α) : β × List (α × β) :=
  match cache.find? (fun p => p.1 = a) with
  | some p => (p.2, p :: cache.filter (fun q => !(q.1 = a : Bool)))
  | none => (f a, ((a, f a) :: cache).take cap)

/-- An entry of a memo table for `f` always holds the value of `f`. -/
def CacheValid {α β : Type} (f : α → β) (cache : List (α × β)) : Prop :=
  ∀ p ∈ cache, p.2 = f p.1

/-! ### Statistics

The Python pipeline mutates the `stats` dict in place as its generators
are consumed.  The mutations are modelled as an explicit list of
events, applied in the exact order the statements execute; fully
consuming the pipeline folds the whole event list over the initial
statistics. -/

structure SectionNamesStats where
  global : List Char → Nat
  last_revision : List Char → Nat

structure PerformanceStats where
  revisions_analyzed : Nat
  pages_analyzed : Nat

structure Stats where
  performance : PerformanceStats
  section_names : SectionNamesStats

/-- `stats` as initialized in `main` (counters empty / zero). -/
def initial_stats : Stats :=
  ⟨⟨0, 0⟩, ⟨fun _ => 0, fun _ => 0⟩⟩

/-- One counter mutation of the pipeline. -/
inductive StatsEvent where
  | incGlobal (name : List Char)
  | incLastRevision (name : List Char)
  | incRevisionsAnalyzed
  | incPagesAnalyzed
deriving DecidableEq, Repr

/-- Increment a `collections.Counter` at one key. -/
def bump (f : List Char → Nat) (nm : List Char) : List Char → Nat :=
  fun n => if n = nm then f n + 1 else f n

def applyEvent (s : Stats) : StatsEvent → Stats
  | .incGlobal nm =>
    { s with section_names := { s.section_names with global := bump s.section_names.global nm } }
  | .incLastRevision nm =>
    { s with section_names :=
        { s.section_names with last_revision := bump s.section_names.last_revision nm } }
  | .incRevisionsAnalyzed =>
    { s with performance :=
        { s.performance with revisions_analyzed := s.performance.revisions_analyzed + 1 } }
  | .incPagesAnalyzed =>
    { s with performance :=
        { s.performance with pages_analyzed := s.performance.pages_analyzed + 1 } }

/-- The counter updates of the per-section loop of `extract_revisions`:
for each retained section, `section_names['global'][name] += 1` and,
when the revision is the page's last, `section_names['last_revision'][name] += 1`. -/
def sectionEvents (is_last_revision : Bool) (secs : List Section) : List StatsEvent :=
  secs.flatMap (fun sec =>
    .incGlobal sec.name :: if is_last_revision then [.incLastRevision sec.name] else [])

/-- The revision loop of `extract_revisions`, returning the emitted
`Revision` records and the counter updates in execution order.  The
`peekable`/`utils.has_next` lookahead makes a revision last exactly
when no revision follows it; `stats['performance']['revisions_analyzed'] += 1`
executes after the `yield`, which a fully-consumed generator always
reaches. -/
def extract_revisions_go (ext : Externals) (language : List Char)
    (only_last_revision : Bool) :
    List MwRevision → List Revision × List StatsEvent
  | [] => ([], [])
  | mw_revision :: rest =>
    let is_last_revision := rest.isEmpty
    if only_last_revision && !is_last_revision then
      extract_revisions_go ext language only_last_revision rest
    else
      let text := ext.remove_comments (mw_revision.text.getD [])
      let bibliography_sections :=
        (ext.sections_of text).filter
          (fun sec => is_bibliography ext sec.name language FUZZY_MATCH_CUTOFF)
      let evs := sectionEvents is_last_revision bibliography_sections
      let text2 := (bibliography_sections.map Section.full_body).flatten
      let rev : Revision :=
        ⟨mw_revision.id, mw_revision.parent_id, mw_revision.user, mw_revision.minor,
         mw_revision.comment, mw_revision.model, mw_revision.format,
         mw_revision.timestamp, text2, bibliography_sections⟩
      let rec_ := extract_revisions_go ext language only_last_revision rest
      (rev :: rec_.1, evs ++ [.incRevisionsAnalyzed] ++ rec_.2)

/-- `extract_revisions(mw_page, language, stats, only_last_revision)`,
fully consumed. -/
def extract_revisions (ext : Externals) (mw_page : MwPage) (language : List Char)
    (stats : Stats) (only_last_revision : Bool) : List Revision × Stats :=
  let r := extract_revisions_go ext language only_last_revision mw_page.revisions
  (r.1, r.2.foldl applyEvent stats)

/-- The page loop of `extract_pages`: pages outside namespace 0 are
skipped entirely; `stats['performance']['pages_analyzed'] += 1`
executes after the page is yielded, so when the consumer drains the
page's lazy revisions before advancing (as the renderer does), the
page's revision events precede its `incPagesAnalyzed`. -/
def extract_pages_go (ext : Externals) (language : List Char)
    (only_last_revision : Bool) : List MwPage → List Page × List StatsEvent
  | [] => ([], [])
  | mw_page :: dump =>
    if mw_page.ns ≠ 0 then
      extract_pages_go ext language only_last_revision dump
    else
      let r := extract_revisions_go ext language only_last_revision mw_page.revisions
      let page : Page := ⟨mw_page.id, mw_page.ns, mw_page.title, r.1⟩
      let rec_ := extract_pages_go ext language only_last_revision dump
      (page :: rec_.1, r.2 ++ [.incPagesAnalyzed] ++ rec_.2)

/-- `extract_pages(dump, language, stats, only_last_revision)`, fully
consumed. -/
def extract_pages (ext : Externals) (dump : List MwPage) (language : List Char)
    (stats : Stats) (only_last_revision : Bool) : List Page × Stats :=
  let r := extract_pages_go ext language only_last_revision dump
  (r.1, r.2.foldl applyEvent stats)

/-- The §3 invariant on the statistics counters. -/
def StatsInv (s : Stats) : Prop :=
  ∀ nm, s.section_names.last_revision nm ≤ s.section_names.global nm

/-- Event lists in which a `last_revision` increment for a name only
ever appears immediately after a `global` increment for the same name —
the shape the pipeline's counter updates have. -/
inductive EventsOK : List StatsEvent → Prop where
  | nil : EventsOK []
  | rev {l} : EventsOK l → EventsOK (.incRevisionsAnalyzed :: l)
  | page {l} : EventsOK l → EventsOK (.incPagesAnalyzed :: l)
  | glob {l} (nm : List Char) : EventsOK l → EventsOK (.incGlobal nm :: l)
  | globLast {l} (nm : List Char) : EventsOK l →
      EventsOK (.incGlobal nm :: .incLastRevision nm :: l)

/-- A concrete instantiation of the external collaborators, used to
exercise the pipeline theorems on closed inputs: comment removal is the
identity, every revision splits into one `"References"` section, the
similarity scorer is constantly 95 and every language maps to the
single synonym `"References"`. -/
def sampleExternals : Externals where
  remove_comments := fun t => t
  sections_of := fun _ => [⟨"References".data, 2, "body".data⟩]
  scorer := fun _ _ => 95
  bibliography := fun _ => ["References".data]

/-- The section produced by `sampleExternals.sections_of`. -/
def sampleSection : Section := ⟨"References".data, 2, "body".data⟩

/-- A concrete revision record. -/
def sampleRevision (n : Nat) : MwRevision :=
  ⟨n, none, none, false, [], [], [], [], some "x".data⟩

/-! # Lemmas and theorems -/

/-! ## Splitting properties of the matchers -/

theorem takeLit_append {lit s r : List Char} (h : takeLit lit s = some r) :
    lit ++ r = s := by
  induction lit generalizing s with
  | nil =>
    simp only [takeLit, Option.some.injEq] at h
    simp [h]
  | cons c cs ih =>
    cases s with
    | nil => simp [takeLit] at h
    | cons d ds =>
      simp only [takeLit] at h
      split at h
      · next hc => simp [hc, ih h]
      · exact absurd h (by simp)

theorem matchLit_split {lit s t r : List Char} (hne : lit ≠ [])
    (h : matchLit lit s = some (t, r)) : t ++ r = s ∧ t ≠ [] := by
  unfold matchLit at h
  split at h
  · next heq =>
    simp only [Option.some.injEq, Prod.mk.injEq] at h
    obtain ⟨rfl, rfl⟩ := h
    exact ⟨takeLit_append heq, hne⟩
  · exact absurd h (by simp)

theorem matchRun_split {p : Char → Bool} {s t r : List Char}
    (h : matchRun p s = some (t, r)) :
    t ++ r = s ∧ t ≠ [] ∧ ∀ c ∈ t, p c := by
  unfold matchRun at h
  split at h
  · exact absurd h (by simp)
  · next hne =>
    simp only [Option.some.injEq, Prod.mk.injEq] at h
    obtain ⟨rfl, rfl⟩ := h
    refine ⟨List.takeWhile_append_dropWhile _ _, ?_, ?_⟩
    · simpa [List.isEmpty_iff] using hne
    · exact fun c hc => List.mem_takeWhile_imp hc

theorem matchClass1_split {p : Char → Bool} {s t r : List Char}
    (h : matchClass1 p s = some (t, r)) :
    t ++ r = s ∧ t ≠ [] ∧ ∀ c ∈ t, p c := by
  unfold matchClass1 at h
  split at h
  · exact absurd h (by simp)
  · next c r' =>
    split at h
    · next hc =>
      simp only [Option.some.injEq, Prod.mk.injEq] at h
      obtain ⟨rfl, rfl⟩ := h
      exact ⟨rfl, by simp, by simp [hc]⟩
    · exact absurd h (by simp)

theorem matchEtc_split {s t r : List Char}
    (h : matchEtc s = some (t, r)) :
    t ++ r = s ∧ t ≠ [] ∧ ∀ c ∈ t, c ≠ '\n' := by
  unfold matchEtc at h
  split at h
  · exact absurd h (by simp)
  · next c r' =>
    split at h
    · exact absurd h (by simp)
    · next hc =>
      simp only [Option.some.injEq, Prod.mk.injEq] at h
      obtain ⟨rfl, rfl⟩ := h
      exact ⟨rfl, by simp, by simp [hc]⟩

theorem matchDoiStart_split {s t r : List Char}
    (h : matchDoiStart s = some (t, r)) :
    t ++ r = s ∧
      ∃ ds, t = '1' :: '0' :: '.' :: (ds ++ ['/']) ∧
        (∀ c ∈ ds, c.isDigit) ∧ 4 ≤ ds.length := by
  unfold matchDoiStart at h
  split at h
  · exact absurd h (by simp)
  · next s1 heq =>
    split at h
    · exact absurd h (by simp)
    · next hlen =>
      split at h
      · next r2 hdrop =>
        simp only [Option.some.injEq, Prod.mk.injEq] at h
        obtain ⟨rfl, rfl⟩ := h
        have hsplit : s1.takeWhile Char.isDigit ++ ('/' :: r2) = s1 := by
          rw [← hdrop]; exact List.takeWhile_append_dropWhile _ _
        constructor
        · have := takeLit_append heq
          simp only [List.cons_append, List.append_assoc, List.append_nil,
            List.singleton_append, List.nil_append] at this ⊢
          rw [hsplit]
          exact this
        · exact ⟨s1.takeWhile Char.isDigit, rfl,
            fun c hc => List.mem_takeWhile_imp hc, by omega⟩
      · exact absurd h (by simp)

theorem takeLitCI_take {nm s r : List Char} (h : takeLitCI nm s = some r) :
    s.take nm.length ++ r = s := by
  induction nm generalizing s with
  | nil =>
    simp only [takeLitCI, Option.some.injEq] at h
    simp [h]
  | cons c cs ih =>
    cases s with
    | nil => simp [takeLitCI] at h
    | cons d ds =>
      simp only [takeLitCI] at h
      split at h
      · simpa using ih h
      · exact absurd h (by simp)

theorem matchAttrsClose_split {s t r : List Char}
    (h : matchAttrsClose s = some (t, r)) : t ++ r = s ∧ t ≠ [] := by
  unfold matchAttrsClose at h
  split at h
  · exact absurd h (by simp)
  · next c r' =>
    split at h
    · split at h
      · next r2 hdrop =>
        split at h
        · exact absurd h (by simp)
        · simp only [Option.some.injEq, Prod.mk.injEq] at h
          obtain ⟨rfl, rfl⟩ := h
          constructor
          · have hsplit : r'.takeWhile isAttrChar ++ ('>' :: r2) = r' := by
              rw [← hdrop]; exact List.takeWhile_append_dropWhile _ _
            simp only [List.cons_append, List.append_assoc, List.singleton_append,
              List.nil_append]
            rw [hsplit]
          · simp
      · exact absurd h (by simp)
    · split at h
      · next hc =>
        simp only [Option.some.injEq, Prod.mk.injEq] at h
        obtain ⟨rfl, rfl⟩ := h
        exact ⟨by simp [hc], by simp⟩
      · exact absurd h (by simp)

theorem tryTagNames_split {names : List (List Char)} {s t r : List Char}
    (h : tryTagNames names s = some (t, r)) : t ++ r = s ∧ t ≠ [] := by
  induction names with
  | nil => simp [tryTagNames] at h
  | cons nm rest ih =>
    simp only [tryTagNames] at h
    split at h
    · next r1 heq =>
      split at h
      · next a r2 hattrs =>
        simp only [Option.some.injEq, Prod.mk.injEq] at h
        obtain ⟨rfl, rfl⟩ := h
        obtain ⟨ha, hane⟩ := matchAttrsClose_split hattrs
        constructor
        · rw [List.append_assoc, ha]
          exact takeLitCI_take heq
        · simp [hane]
      · exact ih h
    · exact ih h

theorem matchTag_split {s t r : List Char}
    (h : matchTag s = some (t, r)) : t ++ r = s ∧ t ≠ [] := by
  unfold matchTag at h
  split at h
  · next u =>
    split at h
    · next body r1 heq =>
      simp only [Option.some.injEq, Prod.mk.injEq] at h
      obtain ⟨rfl, rfl⟩ := h
      obtain ⟨hb, _⟩ := tryTagNames_split heq
      refine ⟨?_, by simp⟩
      simp only [List.cons_append, List.append_assoc]
      rw [hb, List.takeWhile_append_dropWhile]
    · exact absurd h (by simp)
  · next s1 _ =>
    split at h
    · next body r1 heq =>
      simp only [Option.some.injEq, Prod.mk.injEq] at h
      obtain ⟨rfl, rfl⟩ := h
      obtain ⟨hb, _⟩ := tryTagNames_split heq
      refine ⟨?_, by simp⟩
      simp only [List.cons_append]
      rw [hb]
    · exact absurd h (by simp)
  · exact absurd h (by simp)

theorem matchLit_split' {l : Char} {ls s t r : List Char}
    (h : matchLit (l :: ls) s = some (t, r)) : t ++ r = s ∧ t ≠ [] :=
  matchLit_split (by simp) h

theorem matchLit_eq {lit s t r : List Char} (h : matchLit lit s = some (t, r)) :
    t = lit := by
  unfold matchLit at h
  split at h
  · simp only [Option.some.injEq, Prod.mk.injEq] at h
    exact h.1.symm
  · exact absurd h (by simp)

theorem matchLit_no_newline {lit s t r : List Char}
    (h : matchLit lit s = some (t, r)) (hlit : '\n' ∉ lit) : '\n' ∉ t :=
  (matchLit_eq h) ▸ hlit

theorem matchDoiStart_no_newline {s t r : List Char}
    (h : matchDoiStart s = some (t, r)) : '\n' ∉ t := by
  obtain ⟨-, ds, rfl, hds, -⟩ := matchDoiStart_split h
  intro hmem
  simp only [List.mem_cons, List.mem_append, List.mem_singleton] at hmem
  rcases hmem with h1 | h1 | h1 | h1 | h1
  · exact absurd h1 (by decide)
  · exact absurd h1 (by decide)
  · exact absurd h1 (by decide)
  · exact absurd (hds _ h1) (by decide)
  · exact absurd h1 (by decide)

/-! ## Properties of the alternation `lexMatch` -/

theorem lexMatch_split {s : List Char} {k : TokenKind} {t r : List Char}
    (h : lexMatch s = some (k, t, r)) : t ++ r = s ∧ t ≠ [] := by
  unfold lexMatch at h
  repeat' split at h
  any_goals (exact Option.noConfusion h)
  all_goals simp only [Option.some.injEq, Prod.mk.injEq] at h
  all_goals obtain ⟨-, rfl, rfl⟩ := h
  all_goals first
    | (obtain ⟨h1, ds, rfl, -, -⟩ := matchDoiStart_split ‹_›; exact ⟨h1, by simp⟩)
    | exact matchLit_split' ‹_›
    | exact matchTag_split ‹_›
    | exact ⟨(matchRun_split ‹_›).1, (matchRun_split ‹_›).2.1⟩
    | exact ⟨(matchClass1_split ‹_›).1, (matchClass1_split ‹_›).2.1⟩
    | exact ⟨(matchEtc_split ‹_›).1, (matchEtc_split ‹_›).2.1⟩

theorem lexMatch_isSome {s : List Char} (h : s ≠ []) :
    (lexMatch s).isSome = true := by
  cases s with
  | nil => exact absurd rfl h
  | cons c cs =>
    unfold lexMatch
    repeat' split
    any_goals rfl
    exfalso
    have hetc : matchEtc (c :: cs) = none := by assumption
    have hbrk : matchRun isBreakChar (c :: cs) = none := by assumption
    by_cases hc : c = '\n'
    · have hb : isBreakChar c = true := by simp [isBreakChar, hc]
      simp [matchRun, List.takeWhile_cons, hb] at hbrk
    · simp [matchEtc, hc] at hetc

theorem lexMatch_doi_start {s t r : List Char}
    (h : lexMatch s = some (.doi_start, t, r)) :
    matchDoiStart s = some (t, r) := by
  unfold lexMatch at h
  repeat' split at h
  any_goals (exact Option.noConfusion h)
  all_goals simp only [Option.some.injEq, Prod.mk.injEq] at h
  all_goals first
    | (obtain ⟨rfl, rfl⟩ := h.2; assumption)
    | exact absurd h.1 (by decide)

/-- A token kind appended to the identifier by `read_doi` — anything
but `break`, `whitespace` and `tag` — has a newline-free text. -/
theorem lexMatch_no_newline {s : List Char} {k : TokenKind} {t r : List Char}
    (h : lexMatch s = some (k, t, r))
    (hk1 : k ≠ .brk) (hk2 : k ≠ .whitespace) (hk3 : k ≠ .tag) : '\n' ∉ t := by
  unfold lexMatch at h
  repeat' split at h
  any_goals (exact Option.noConfusion h)
  all_goals simp only [Option.some.injEq, Prod.mk.injEq] at h
  all_goals obtain ⟨rfl, rfl, rfl⟩ := h
  all_goals first
    | exact absurd rfl hk1
    | exact absurd rfl hk2
    | exact absurd rfl hk3
    | exact matchDoiStart_no_newline ‹_›
    | exact matchLit_no_newline ‹_› (by decide)
    | (intro hmem; exact absurd ((matchClass1_split ‹_›).2.2 _ hmem) (by decide))
    | (intro hmem; exact absurd ((matchRun_split ‹_›).2.2 _ hmem) (by decide))
    | (intro hmem; exact ((matchEtc_split ‹_›).2.2 _ hmem) rfl)

/-! ## The tokenizer -/

theorem tokensText_go : ∀ (fuel : Nat) (s : List Char), s.length ≤ fuel →
    tokensText (tokenize_finditer_go fuel s) = s := by
  intro fuel
  induction fuel with
  | zero =>
    intro s hs
    have hnil : s = [] := List.length_eq_zero.mp (Nat.le_zero.mp hs)
    subst hnil; rfl
  | succ n ih =>
    intro s hs
    cases s with
    | nil => rfl
    | cons c cs =>
      have htot := lexMatch_isSome (show c :: cs ≠ [] by simp)
      obtain ⟨⟨k, t, r⟩, heq⟩ := Option.isSome_iff_exists.mp htot
      obtain ⟨hsplit, hne⟩ := lexMatch_split heq
      have hlen : r.length ≤ n := by
        have hl := congrArg List.length hsplit
        simp only [List.length_append, List.length_cons] at hl hs
        have ht1 : 1 ≤ t.length := by
          cases t with
          | nil => exact absurd rfl hne
          | cons a as => simp
        omega
      simp only [tokenize_finditer_go, heq]
      have : tokensText ((k, t) :: tokenize_finditer_go n r) =
          t ++ tokensText (tokenize_finditer_go n r) := by
        simp [tokensText]
      rw [this, ih r hlen, hsplit]

/-- C1.  **Losslessness**: for every input text, concatenating the
`text` field of every token produced by `tokenize_finditer` over the
fixed `LEXICON`, in order, yields the input back exactly — the token
sequence covers the text with no gaps and no overlaps. -/
theorem C1_lexer_lossless (s : List Char) :
    tokensText (tokenize_finditer s) = s :=
  tokensText_go s.length s le_rfl

/-! ## Tokens of the tokenizer -/

theorem tokenize_go_no_newline : ∀ (fuel : Nat) (s : List Char) {k : TokenKind}
    {t : List Char}, (k, t) ∈ tokenize_finditer_go fuel s →
    k ≠ .brk → k ≠ .whitespace → k ≠ .tag → '\n' ∉ t := by
  intro fuel
  induction fuel with
  | zero => intro s k t hmem; simp [tokenize_finditer_go] at hmem
  | succ n ih =>
    intro s k t hmem hk1 hk2 hk3
    cases s with
    | nil => simp [tokenize_finditer_go] at hmem
    | cons c cs =>
      simp only [tokenize_finditer_go] at hmem
      cases heq : lexMatch (c :: cs) with
      | some ktr =>
        obtain ⟨k', t', r'⟩ := ktr
        rw [heq] at hmem
        simp only [List.mem_cons] at hmem
        rcases hmem with h1 | h1
        · injection h1 with hk ht
          subst hk; subst ht
          exact lexMatch_no_newline heq hk1 hk2 hk3
        · exact ih r' h1 hk1 hk2 hk3
      | none =>
        rw [heq] at hmem
        exact ih _ hmem hk1 hk2 hk3

theorem tokenize_go_head_lexMatch : ∀ (fuel : Nat) (s : List Char) {k : TokenKind}
    {t : List Char} {rest : List (TokenKind × List Char)},
    tokenize_finditer_go fuel s = (k, t) :: rest →
    ∃ s' r', lexMatch s' = some (k, t, r') := by
  intro fuel
  induction fuel with
  | zero => intro s k t rest h; simp [tokenize_finditer_go] at h
  | succ n ih =>
    intro s k t rest h
    cases s with
    | nil => simp [tokenize_finditer_go] at h
    | cons c cs =>
      simp only [tokenize_finditer_go] at h
      cases heq : lexMatch (c :: cs) with
      | some ktr =>
        obtain ⟨k', t', r'⟩ := ktr
        rw [heq] at h
        simp only [List.cons.injEq] at h
        obtain ⟨h1, -⟩ := h
        injection h1 with hk ht
        subst hk; subst ht
        exact ⟨c :: cs, r', heq⟩
      | none =>
        rw [heq] at h
        exact ih _ h

/-- The text of a leading `doi_start` token has the shape
`10.` + (at least four digits) + `/`. -/
theorem tokenize_head_doi_shape {s txt : List Char} {rest : List (TokenKind × List Char)}
    (h : tokenize_finditer s = (TokenKind.doi_start, txt) :: rest) :
    ∃ ds, txt = '1' :: '0' :: '.' :: (ds ++ ['/']) ∧
      (∀ c ∈ ds, c.isDigit) ∧ 4 ≤ ds.length := by
  obtain ⟨s', r', heq⟩ := tokenize_go_head_lexMatch _ _ h
  exact (matchDoiStart_split (lexMatch_doi_start heq)).2

/-! ## The accumulation loop of `read_doi` -/

theorem read_doi_go_buf : ∀ (ts : List (TokenKind × List Char)) (dB dC : Nat)
    (buf : List Char),
    ∃ extra, (read_doi_go dB dC buf ts).1 = buf ++ extra ∧
      ∀ c ∈ extra, ∃ k t, (k, t) ∈ ts ∧ c ∈ t ∧ isTerminatorKind k = false := by
  intro ts
  induction ts with
  | nil =>
    intro dB dC buf
    exact ⟨[], by simp [read_doi_go], by simp⟩
  | cons kt rest ih =>
    intro dB dC buf
    obtain ⟨k, t⟩ := kt
    have cont : isTerminatorKind k = false → ∀ dB' dC',
        ∃ extra, (read_doi_go dB' dC' (buf ++ t) rest).1 = buf ++ extra ∧
          ∀ c ∈ extra, ∃ k' t', (k', t') ∈ (k, t) :: rest ∧ c ∈ t' ∧
            isTerminatorKind k' = false := by
      intro hterm dB' dC'
      obtain ⟨e, he, hmem⟩ := ih dB' dC' (buf ++ t)
      refine ⟨t ++ e, by simpa [List.append_assoc] using he, ?_⟩
      intro c hc
      rcases List.mem_append.mp hc with hc | hc
      · exact ⟨k, t, List.mem_cons_self _ _, hc, hterm⟩
      · obtain ⟨k', t', hkt, hct, hterm'⟩ := hmem c hc
        exact ⟨k', t', List.mem_cons_of_mem _ hkt, hct, hterm'⟩
    cases k with
    | url_end => exact ⟨[], by simp [read_doi_go, isTerminatorKind], by simp⟩
    | brk => exact ⟨[], by simp [read_doi_go, isTerminatorKind], by simp⟩
    | whitespace => exact ⟨[], by simp [read_doi_go, isTerminatorKind], by simp⟩
    | tag => exact ⟨[], by simp [read_doi_go, isTerminatorKind], by simp⟩
    | pipe => exact ⟨[], by simp [read_doi_go, isTerminatorKind], by simp⟩
    | comment_start => exact ⟨[], by simp [read_doi_go, isTerminatorKind], by simp⟩
    | comment_end => exact ⟨[], by simp [read_doi_go, isTerminatorKind], by simp⟩
    | open_bracket =>
      simpa [read_doi_go, isTerminatorKind] using cont rfl (dB + 1) dC
    | open_curly =>
      simpa [read_doi_go, isTerminatorKind] using cont rfl dB (dC + 1)
    | close_bracket =>
      by_cases hdb : 0 < dB
      · simpa [read_doi_go, isTerminatorKind, hdb] using cont rfl (dB - 1) dC
      · exact ⟨[], by simp [read_doi_go, isTerminatorKind, hdb], by simp⟩
    | close_curly =>
      by_cases hdc : 0 < dC
      · simpa [read_doi_go, isTerminatorKind, hdc] using cont rfl dB (dC - 1)
      · exact ⟨[], by simp [read_doi_go, isTerminatorKind, hdc], by simp⟩
    | doi_start => simpa [read_doi_go, isTerminatorKind] using cont rfl dB dC
    | open_paren => simpa [read_doi_go, isTerminatorKind] using cont rfl dB dC
    | close_paren => simpa [read_doi_go, isTerminatorKind] using cont rfl dB dC
    | open_angle => simpa [read_doi_go, isTerminatorKind] using cont rfl dB dC
    | close_angle => simpa [read_doi_go, isTerminatorKind] using cont rfl dB dC
    | punct => simpa [read_doi_go, isTerminatorKind] using cont rfl dB dC
    | word => simpa [read_doi_go, isTerminatorKind] using cont rfl dB dC
    | etc => simpa [read_doi_go, isTerminatorKind] using cont rfl dB dC

/-! ## Trailing-punctuation stripping -/

theorem mem_of_getLast?_eq {s : List Char} {c : Char}
    (h : s.getLast? = some c) : c ∈ s := by
  rw [← List.head?_reverse] at h
  have hmem : c ∈ s.reverse := by
    cases hr : s.reverse with
    | nil => rw [hr] at h; simp at h
    | cons a as =>
      rw [hr] at h
      simp only [List.head?_cons, Option.some.injEq] at h
      simp [h]
  exact List.mem_reverse.mp hmem

theorem dropTrailing_of_getLast {p : Char → Bool} {s : List Char} {c : Char}
    (hl : s.getLast? = some c) (hc : p c = false) : dropTrailing p s = s := by
  unfold dropTrailing
  cases hrev : s.reverse with
  | nil =>
    have hnil : s = [] := List.reverse_eq_nil_iff.mp hrev
    subst hnil; simp at hl
  | cons a as =>
    have hhead : s.reverse.head? = some c := by
      rw [List.head?_reverse]; exact hl
    rw [hrev] at hhead
    simp only [List.head?_cons, Option.some.injEq] at hhead
    subst hhead
    rw [List.dropWhile_cons, if_neg (by simp [hc]), ← hrev,
      List.reverse_reverse]

theorem dropTrailing_decomp (p : Char → Bool) (s : List Char) :
    s = dropTrailing p s ++ (s.reverse.takeWhile p).reverse ∧
    (∀ c ∈ (s.reverse.takeWhile p).reverse, p c = true) ∧
    (∀ c, (dropTrailing p s).getLast? = some c → p c = false) := by
  refine ⟨?_, ?_, ?_⟩
  · conv_lhs =>
      rw [← List.reverse_reverse s, ← List.takeWhile_append_dropWhile p s.reverse]
    rw [List.reverse_append]
    rfl
  · intro c hc
    rw [List.mem_reverse] at hc
    exact List.mem_takeWhile_imp hc
  · intro c hlast
    unfold dropTrailing at hlast
    rw [List.getLast?_reverse] at hlast
    have H := List.head?_dropWhile_not p s.reverse
    cases hdw : List.dropWhile p s.reverse with
    | nil => rw [hdw] at hlast; simp at hlast
    | cons a as =>
      rw [hdw] at hlast H
      simp only [List.head?_cons, Option.some.injEq] at hlast H
      rw [← hlast]
      exact H

theorem dropTrailing_ne_nil {p : Char → Bool} {s : List Char} {c : Char}
    (hmem : c ∈ s) (hc : p c = false) : dropTrailing p s ≠ [] := by
  intro hnil
  unfold dropTrailing at hnil
  have hdw : List.dropWhile p s.reverse = [] := List.reverse_eq_nil_iff.mp hnil
  have hall := List.dropWhile_eq_nil_iff.mp hdw
  have := hall c (List.mem_reverse.mpr hmem)
  rw [hc] at this
  exact Bool.false_ne_true this

/-- The buffer accumulated by `read_doi` over tokenizer output never
contains a newline: the `doi_start` text is made of digits, `.` and
`/`, and every further appended token has a non-terminator kind, whose
text is newline-free. -/
theorem read_doi_buf_no_newline {s txt : List Char} {rest : List (TokenKind × List Char)}
    (h : tokenize_finditer s = (TokenKind.doi_start, txt) :: rest) :
    '\n' ∉ (read_doi_go 0 0 txt rest).1 := by
  obtain ⟨ds, htxt, hds, -⟩ := tokenize_head_doi_shape h
  obtain ⟨extra, hbuf, hmem⟩ := read_doi_go_buf rest 0 0 txt
  rw [hbuf]
  intro hc
  rcases List.mem_append.mp hc with hc | hc
  · rw [htxt] at hc
    simp only [List.mem_cons, List.mem_append, List.mem_singleton] at hc
    rcases hc with h1 | h1 | h1 | h1 | h1
    · exact absurd h1 (by decide)
    · exact absurd h1 (by decide)
    · exact absurd h1 (by decide)
    · exact absurd (hds _ h1) (by decide)
    · exact absurd h1 (by decide)
  · obtain ⟨k, t, hkt, hct, hterm⟩ := hmem _ hc
    have hk1 : k ≠ .brk := by intro hk; subst hk; simp [isTerminatorKind] at hterm
    have hk2 : k ≠ .whitespace := by
      intro hk; subst hk; simp [isTerminatorKind] at hterm
    have hk3 : k ≠ .tag := by intro hk; subst hk; simp [isTerminatorKind] at hterm
    have hmem' : (k, t) ∈ tokenize_finditer_go s.length s := by
      have : (k, t) ∈ tokenize_finditer s := by
        rw [h]; exact List.mem_cons_of_mem _ hkt
      exact this
    exact tokenize_go_no_newline s.length s hmem' hk1 hk2 hk3 hct

/-- C3.  While accumulating, `read_doi` consumes and appends a
`close_bracket`/`close_curly` token when the corresponding depth
counter is positive (decrementing it) and stops without consuming it
when the counter is 0; consequently the tokens of `"10.1000/ab[c]d"`
yield id `"10.1000/ab[c]d"` and the tokens of `"10.1000/abc]"` yield id
`"10.1000/abc"`. -/
theorem C3_close_marker_depth :
    (∀ (depthBracket depthCurly : Nat) (buf t : List Char)
        (rest : List (TokenKind × List Char)),
        read_doi_go depthBracket depthCurly buf ((TokenKind.close_bracket, t) :: rest) =
          if 0 < depthBracket then
            read_doi_go (depthBracket - 1) depthCurly (buf ++ t) rest
          else (buf, (TokenKind.close_bracket, t) :: rest)) ∧
    (∀ (depthBracket depthCurly : Nat) (buf t : List Char)
        (rest : List (TokenKind × List Char)),
        read_doi_go depthBracket depthCurly buf ((TokenKind.close_curly, t) :: rest) =
          if 0 < depthCurly then
            read_doi_go depthBracket (depthCurly - 1) (buf ++ t) rest
          else (buf, (TokenKind.close_curly, t) :: rest)) ∧
    (read_doi (tokenize_finditer ("10.1000/ab[c]d".data))).1.id =
      "10.1000/ab[c]d".data ∧
    (read_doi (tokenize_finditer ("10.1000/abc]".data))).1.id =
      "10.1000/abc".data := by
  refine ⟨?_, ?_, by decide, by decide⟩
  · intro dB dC buf t rest
    simp [read_doi_go, isTerminatorKind]
  · intro dB dC buf t rest
    simp [read_doi_go, isTerminatorKind]

/-- C8.  When the token stream's next token is an identifier-start
token of the lexer, `read_doi` returns a non-empty id: the buffer
starts with the `doi_start` match, which ends in `/`, a character the
trailing-punctuation strip never removes. -/
theorem C8_identifier_nonempty (s txt : List Char) (rest : List (TokenKind × List Char))
    (h : tokenize_finditer s = (TokenKind.doi_start, txt) :: rest) :
    (read_doi (tokenize_finditer s)).1.id ≠ [] := by
  obtain ⟨ds, htxt, hds, -⟩ := tokenize_head_doi_shape h
  rw [h]
  simp only [read_doi]
  have hsl : '/' ∈ (read_doi_go 0 0 txt rest).1 := by
    obtain ⟨extra, hbuf, -⟩ := read_doi_go_buf rest 0 0 txt
    rw [hbuf, htxt]; simp
  unfold punctuation_at_end_sub
  split
  · simp
  · exact dropTrailing_ne_nil hsl (by decide)

/-- C9.  An identifier-start token immediately followed by a
terminator (or the end of the stream) makes `read_doi` return the
shortest possible identifier — its id is exactly the identifier-start
token's text — without consuming the terminator (and without failing:
it is a total function). -/
theorem C9_immediate_terminator (s txt : List Char) (rest : List (TokenKind × List Char))
    (h : tokenize_finditer s = (TokenKind.doi_start, txt) :: rest)
    (hrest : rest = [] ∨ ∃ k t r2, rest = (k, t) :: r2 ∧
      (isTerminatorKind k = true ∨ k = TokenKind.close_bracket ∨
        k = TokenKind.close_curly)) :
    read_doi (tokenize_finditer s) = (⟨"doi".data, txt⟩, rest) := by
  obtain ⟨ds, htxt, -, -⟩ := tokenize_head_doi_shape h
  have hlast : txt.getLast? = some '/' := by
    rw [htxt]
    have hconc : '1' :: '0' :: '.' :: (ds ++ ['/']) =
        ('1' :: '0' :: '.' :: ds) ++ ['/'] := by simp
    rw [hconc, List.getLast?_concat]
  have hgo : read_doi_go 0 0 txt rest = (txt, rest) := by
    rcases hrest with rfl | ⟨k, t, r2, rfl, hk⟩
    · simp [read_doi_go]
    · rcases hk with hk | rfl | rfl
      · simp [read_doi_go, hk]
      · simp [read_doi_go, isTerminatorKind]
      · simp [read_doi_go, isTerminatorKind]
  have hstrip : punctuation_at_end_sub txt = txt := by
    unfold punctuation_at_end_sub
    rw [hlast, if_neg (by decide)]
    exact dropTrailing_of_getLast hlast (by decide)
  rw [h]
  simp only [read_doi, hgo, hstrip]

/-- C6.  After accumulation ends, `read_doi` strips exactly one
maximal trailing run of characters from `{'.', ',', '!'}` from the
accumulated buffer and nothing elsewhere: the id concatenated with the
stripped run (every character of which is in the set) gives the buffer
back, and the id does not end with a character of the set; in
particular `"10.1000/xyz123."` yields id `"10.1000/xyz123"`. -/
theorem C6_trailing_punctuation :
    (∀ (s txt : List Char) (rest : List (TokenKind × List Char)),
      tokenize_finditer s = (TokenKind.doi_start, txt) :: rest →
      (read_doi (tokenize_finditer s)).1.id =
          dropTrailing isTrailPunct (read_doi_go 0 0 txt rest).1 ∧
        (read_doi_go 0 0 txt rest).1 =
          (read_doi (tokenize_finditer s)).1.id ++
            ((read_doi_go 0 0 txt rest).1.reverse.takeWhile isTrailPunct).reverse ∧
        (∀ c ∈ ((read_doi_go 0 0 txt rest).1.reverse.takeWhile isTrailPunct).reverse,
          isTrailPunct c = true) ∧
        (∀ c, (read_doi (tokenize_finditer s)).1.id.getLast? = some c →
          isTrailPunct c = false)) ∧
    (read_doi (tokenize_finditer ("10.1000/xyz123.".data))).1.id =
      "10.1000/xyz123".data := by
  constructor
  · intro s txt rest h
    have hnl : '\n' ∉ (read_doi_go 0 0 txt rest).1 := read_doi_buf_no_newline h
    have hlastne : ¬((read_doi_go 0 0 txt rest).1.getLast? = some '\n') := by
      intro hl; exact hnl (mem_of_getLast?_eq hl)
    have hid : (read_doi (tokenize_finditer s)).1.id =
        dropTrailing isTrailPunct (read_doi_go 0 0 txt rest).1 := by
      rw [h]
      simp only [read_doi]
      unfold punctuation_at_end_sub
      rw [if_neg hlastne]
    obtain ⟨hdec, hall, hlastp⟩ :=
      dropTrailing_decomp isTrailPunct (read_doi_go 0 0 txt rest).1
    refine ⟨hid, ?_, hall, ?_⟩
    · rw [hid]; exact hdec
    · intro c hc
      rw [hid] at hc
      exact hlastp c hc
  · decide

/-! ## Span search -/

theorem extract_search_go_start_gt (text : List Char) :
    ∀ (ms : List (Nat × Nat)) (last_end : Nat),
      ∀ r ∈ extract_search_go text ms last_end, last_end < r.span.start := by
  intro ms
  induction ms with
  | nil => intro le r hr; simp [extract_search_go] at hr
  | cons m rest ih =>
    intro le r hr
    obtain ⟨begin_pos, match_end⟩ := m
    simp only [extract_search_go] at hr
    split at hr
    · next hgt =>
      simp only [List.mem_cons] at hr
      rcases hr with rfl | hr
      · simpa using hgt
      · have h2 := ih _ r hr
        have h3 : le < begin_pos := hgt
        have h4 : begin_pos ≤
            begin_pos + (read_doi (tokenize_search text begin_pos)).1.id.length :=
          Nat.le_add_right _ _
        omega
    · have h2 := ih _ r hr
      exact lt_of_le_of_lt (le_max_right _ _) h2

theorem extract_search_go_span_le (text : List Char) :
    ∀ (ms : List (Nat × Nat)) (last_end : Nat),
      ∀ r ∈ extract_search_go text ms last_end, r.span.start ≤ r.span.stop := by
  intro ms
  induction ms with
  | nil => intro le r hr; simp [extract_search_go] at hr
  | cons m rest ih =>
    intro le r hr
    obtain ⟨begin_pos, match_end⟩ := m
    simp only [extract_search_go] at hr
    split at hr
    · simp only [List.mem_cons] at hr
      rcases hr with rfl | hr
      · exact Nat.le_add_right begin_pos _
      · exact ih _ r hr
    · exact ih _ r hr

theorem extract_search_go_chain (text : List Char) :
    ∀ (ms : List (Nat × Nat)) (last_end : Nat),
      List.Chain' (fun r1 r2 => r1.span.stop < r2.span.start)
        (extract_search_go text ms last_end) := by
  intro ms
  induction ms with
  | nil => intro le; simp [extract_search_go]
  | cons m rest ih =>
    intro le
    obtain ⟨begin_pos, match_end⟩ := m
    simp only [extract_search_go]
    split
    · rw [List.chain'_cons']
      refine ⟨?_, ih _⟩
      intro r2 hr2
      have hmem := List.mem_of_mem_head? hr2
      have h2 := extract_search_go_start_gt text rest _ r2 hmem
      simpa using h2
    · exact ih _

/-- C2.  The captures of `extract_search` come in ascending span
order: each span satisfies `start ≤ stop`, and for every pair of
consecutively yielded spans `s1, s2`, `s1.stop ≤ s2.start` — the spans
are strictly increasing and non-overlapping. -/
theorem C2_spans_nonoverlapping (text : List Char) :
    (∀ r ∈ extract_search text, r.span.start ≤ r.span.stop) ∧
    List.Chain' (fun r1 r2 => r1.span.stop ≤ r2.span.start)
      (extract_search text) := by
  constructor
  · exact extract_search_go_span_le text (doi_finditer text) 0
  · exact (extract_search_go_chain text (doi_finditer text) 0).imp
      (fun _ _ h => le_of_lt h)

/-- C10.  `extract_search` never yields a capture whose span starts at
offset 0, and never one starting exactly at the end of the previous
capture: a `DOI_START_RE` match at position `p` is extracted only when
`p` is strictly greater than `last_end`, which starts at 0. -/
theorem C10_skips_offset_zero_and_adjacent (text : List Char) :
    (∀ r ∈ extract_search text, 0 < r.span.start) ∧
    List.Chain' (fun r1 r2 => r1.span.stop < r2.span.start)
      (extract_search text) := by
  constructor
  · intro r hr
    exact extract_search_go_start_gt text (doi_finditer text) 0 r hr
  · exact extract_search_go_chain text (doi_finditer text) 0

/-! ## The classifier -/

theorem extractOne_foldl_isSome (score_cutoff : Nat) :
    ∀ (l : List (List Char × Nat)) (acc : Option (List Char × Nat)),
      ((l.foldl (fun best p =>
        if p.2 < score_cutoff then best
        else
          match best with
          | none => some p
          | some q => if q.2 < p.2 then some p else some q) acc).isSome = true ↔
      (acc.isSome = true ∨ ∃ p ∈ l, score_cutoff ≤ p.2)) := by
  intro l
  induction l with
  | nil => intro acc; simp
  | cons p rest ih =>
    intro acc
    simp only [List.foldl_cons]
    rw [ih]
    constructor
    · rintro (h | ⟨q, hq, hcq⟩)
      · by_cases hp : p.2 < score_cutoff
        · rw [if_pos hp] at h
          exact Or.inl h
        · exact Or.inr ⟨p, List.mem_cons_self _ _, by omega⟩
      · exact Or.inr ⟨q, List.mem_cons_of_mem _ hq, hcq⟩
    · rintro (h | ⟨q, hq, hcq⟩)
      · left
        by_cases hp : p.2 < score_cutoff
        · rw [if_pos hp]; exact h
        · rw [if_neg hp]
          cases acc with
          | none => simp
          | some q2 => simp only; split <;> simp
      · rcases List.mem_cons.mp hq with heq | hq'
        · subst heq
          left
          rw [if_neg (by omega)]
          cases acc with
          | none => simp
          | some q2 => simp only; split <;> simp
        · exact Or.inr ⟨q, hq', hcq⟩

theorem extractOne_isSome_iff (scorer : List Char → List Char → Nat)
    (query : List Char) (choices : List (List Char)) (score_cutoff : Nat) :
    ((extractOne scorer query choices score_cutoff).isSome = true ↔
      ∃ c ∈ choices, score_cutoff ≤ scorer query c) := by
  unfold extractOne
  rw [extractOne_foldl_isSome]
  simp only [Option.isSome_none, Bool.false_eq_true, false_or, List.mem_map]
  constructor
  · rintro ⟨q, ⟨c, hc, rfl⟩, hcq⟩
    exact ⟨c, hc, hcq⟩
  · rintro ⟨c, hc, hcc⟩
    exact ⟨(c, scorer query c), ⟨c, hc, rfl⟩, hcc⟩

theorem foldl_max_init : ∀ (l : List Nat) (acc : Nat), acc ≤ l.foldl max acc := by
  intro l
  induction l with
  | nil => intro acc; simp
  | cons a rest ih =>
    intro acc
    simp only [List.foldl_cons]
    exact le_trans (le_max_left acc a) (ih (max acc a))

theorem le_foldl_max : ∀ (l : List Nat) (acc x : Nat), x ∈ l → x ≤ l.foldl max acc := by
  intro l
  induction l with
  | nil => intro acc x hx; simp at hx
  | cons a rest ih =>
    intro acc x hx
    rcases List.mem_cons.mp hx with rfl | hx'
    · simp only [List.foldl_cons]
      exact le_trans (le_max_right acc x) (foldl_max_init rest _)
    · exact ih _ x hx'

theorem foldl_max_cases : ∀ (l : List Nat) (acc : Nat),
    l.foldl max acc = acc ∨ l.foldl max acc ∈ l := by
  intro l
  induction l with
  | nil => intro acc; simp
  | cons a rest ih =>
    intro acc
    simp only [List.foldl_cons]
    rcases ih (max acc a) with heq | hmem
    · rw [heq]
      rcases Nat.le_total acc a with hle | hle
      · right
        rw [Nat.max_eq_right hle]
        exact List.mem_cons_self _ _
      · left
        exact Nat.max_eq_left hle
    · right
      exact List.mem_cons_of_mem _ hmem

theorem bestScore_iff (scorer : List Char → List Char → Nat) (query : List Char)
    (choices : List (List Char)) (cutoff : Nat) (hne : choices ≠ []) :
    (cutoff ≤ bestScore scorer query choices ↔
      ∃ c ∈ choices, cutoff ≤ scorer query c) := by
  unfold bestScore
  constructor
  · intro h
    rcases foldl_max_cases (choices.map (scorer query)) 0 with heq | hmem
    · rw [heq] at h
      obtain ⟨c, hc⟩ := List.exists_mem_of_ne_nil choices hne
      exact ⟨c, hc, by omega⟩
    · obtain ⟨c, hc, hceq⟩ := List.mem_map.mp hmem
      exact ⟨c, hc, by omega⟩
  · rintro ⟨c, hc, hcc⟩
    have hle : scorer query c ≤ (choices.map (scorer query)).foldl max 0 :=
      le_foldl_max _ _ _ (List.mem_map_of_mem _ hc)
    omega

theorem lru_lookup_correct {α β : Type} [DecidableEq α] (f : α → β) (cap : Nat)
    (cache : List (α × β)) (a : α) (hvalid : CacheValid f cache) :
    (lru_lookup f cap cache a).1 = f a ∧
    CacheValid f (lru_lookup f cap cache a).2 := by
  unfold lru_lookup
  cases hfind : cache.find? (fun p => p.1 = a) with
  | some p =>
    have hmem : p ∈ cache := List.mem_of_find?_eq_some hfind
    have hpa : p.1 = a := by
      have := List.find?_some hfind
      simpa using this
    constructor
    · simp only
      rw [hvalid p hmem, hpa]
    · intro q hq
      simp only [List.mem_cons] at hq
      rcases hq with rfl | hq
      · exact hvalid _ hmem
      · exact hvalid _ (List.mem_of_mem_filter hq)
  | none =>
    constructor
    · simp
    · intro q hq
      simp only at hq
      have hq' : q ∈ (a, f a) :: cache := List.take_subset _ _ hq
      rcases List.mem_cons.mp hq' with rfl | hq''
      · rfl
      · exact hvalid _ hq''

/-- C5.  `is_bibliography` returns true exactly when the best
fuzzy-match score of the section name against the language's synonyms
reaches the cutoff (the synonym list being non-empty), and the LRU
memo table (capacity 500, keyed by the exact argument tuple) never
changes a result: a lookup always returns the plain function's value
and preserves the cache's validity.  Determinism is immediate: the
classifier is a pure function of its arguments and the configuration. -/
theorem C5_is_bibliography_cutoff (ext : Externals)
    (section_name language : List Char) (score_cutoff : Nat)
    (cache : List (((List Char × List Char) × Nat) × Bool))
    (key : (List Char × List Char) × Nat)
    (hne : ext.bibliography language ≠ [])
    (hcache : CacheValid (fun q => is_bibliography ext q.1.1 q.1.2 q.2) cache) :
    (is_bibliography ext section_name language score_cutoff = true ↔
      score_cutoff ≤ bestScore ext.scorer section_name (ext.bibliography language)) ∧
    (lru_lookup (fun q => is_bibliography ext q.1.1 q.1.2 q.2) 500 cache key).1 =
      is_bibliography ext key.1.1 key.1.2 key.2 ∧
    CacheValid (fun q => is_bibliography ext q.1.1 q.1.2 q.2)
      (lru_lookup (fun q => is_bibliography ext q.1.1 q.1.2 q.2) 500 cache key).2 := by
  refine ⟨?_, ?_, ?_⟩
  · unfold is_bibliography
    rw [extractOne_isSome_iff]
    exact (bestScore_iff ext.scorer section_name (ext.bibliography language)
      score_cutoff hne).symm
  · exact (lru_lookup_correct _ 500 cache key hcache).1
  · exact (lru_lookup_correct _ 500 cache key hcache).2

/-! ## The pipeline counters -/

/-- C4.  For a page in namespace 0 with 3 revisions, each of which
splits into exactly one bibliography-classified section named
`"References"`, fully consuming the pipeline with
`only_last_revision = false` counts `global["References"] = 3` and
`last_revision["References"] = 1`; with `only_last_revision = true` it
counts `revisions_analyzed = 1` and `pages_analyzed = 1`. -/
theorem C4_counter_consistency (ext : Externals) (language : List Char)
    (pid : Nat) (title : List Char) (r1 r2 r3 : MwRevision) (s1 s2 s3 : Section)
    (h1 : ext.sections_of (ext.remove_comments (r1.text.getD [])) = [s1])
    (h2 : ext.sections_of (ext.remove_comments (r2.text.getD [])) = [s2])
    (h3 : ext.sections_of (ext.remove_comments (r3.text.getD [])) = [s3])
    (n1 : s1.name = "References".data) (n2 : s2.name = "References".data)
    (n3 : s3.name = "References".data)
    (hb : is_bibliography ext "References".data language FUZZY_MATCH_CUTOFF = true) :
    ((extract_pages ext [⟨pid, 0, title, [r1, r2, r3]⟩] language initial_stats
        false).2.section_names.global "References".data = 3 ∧
      (extract_pages ext [⟨pid, 0, title, [r1, r2, r3]⟩] language initial_stats
        false).2.section_names.last_revision "References".data = 1) ∧
    ((extract_pages ext [⟨pid, 0, title, [r1, r2, r3]⟩] language initial_stats
        true).2.performance.revisions_analyzed = 1 ∧
      (extract_pages ext [⟨pid, 0, title, [r1, r2, r3]⟩] language initial_stats
        true).2.performance.pages_analyzed = 1) := by
  obtain ⟨refs, hrefs⟩ : ∃ refs, "References".data = refs := ⟨_, rfl⟩
  rw [hrefs] at n1 n2 n3 hb ⊢
  have hb1 : is_bibliography ext s1.name language FUZZY_MATCH_CUTOFF = true := by
    rw [n1]; exact hb
  have hb2 : is_bibliography ext s2.name language FUZZY_MATCH_CUTOFF = true := by
    rw [n2]; exact hb
  have hb3 : is_bibliography ext s3.name language FUZZY_MATCH_CUTOFF = true := by
    rw [n3]; exact hb
  refine ⟨⟨?_, ?_⟩, ?_, ?_⟩ <;>
    simp [extract_pages, extract_pages_go, extract_revisions_go, h1, h2, h3,
      hb, hb1, hb2, hb3, n1, n2, n3, sectionEvents, applyEvent, bump,
      initial_stats, List.filter_cons, List.filter_nil, List.flatMap_cons,
      List.flatMap_nil]

theorem EventsOK_append : ∀ {a b : List StatsEvent},
    EventsOK a → EventsOK b → EventsOK (a ++ b) := by
  intro a b ha hb
  induction ha with
  | nil => simpa using hb
  | rev _ ih => exact .rev ih
  | page _ ih => exact .page ih
  | glob nm _ ih => exact .glob nm ih
  | globLast nm _ ih => exact .globLast nm ih

theorem sectionEvents_ok (is_last_revision : Bool) (secs : List Section) :
    EventsOK (sectionEvents is_last_revision secs) := by
  induction secs with
  | nil => exact .nil
  | cons sec rest ih =>
    cases is_last_revision with
    | false =>
      have hev : sectionEvents false (sec :: rest) =
          .incGlobal sec.name :: sectionEvents false rest := by
        simp [sectionEvents]
      rw [hev]
      exact .glob _ ih
    | true =>
      have hev : sectionEvents true (sec :: rest) =
          .incGlobal sec.name :: .incLastRevision sec.name ::
            sectionEvents true rest := by
        simp [sectionEvents]
      rw [hev]
      exact .globLast _ ih

theorem extract_revisions_go_ok (ext : Externals) (language : List Char)
    (only_last_revision : Bool) :
    ∀ revs, EventsOK (extract_revisions_go ext language only_last_revision revs).2 := by
  intro revs
  induction revs with
  | nil => exact .nil
  | cons mw rest ih =>
    simp only [extract_revisions_go]
    split
    · exact ih
    · exact EventsOK_append (EventsOK_append (sectionEvents_ok _ _) (.rev .nil)) ih

theorem extract_pages_go_ok (ext : Externals) (language : List Char)
    (only_last_revision : Bool) :
    ∀ dump, EventsOK (extract_pages_go ext language only_last_revision dump).2 := by
  intro dump
  induction dump with
  | nil => exact .nil
  | cons pg rest ih =>
    simp only [extract_pages_go]
    split
    · exact ih
    · exact EventsOK_append
        (EventsOK_append (extract_revisions_go_ok _ _ _ _) (.page .nil)) ih

theorem inv_incGlobal {s : Stats} (hs : StatsInv s) (nm : List Char) :
    StatsInv (applyEvent s (.incGlobal nm)) := by
  intro n
  simp only [applyEvent, bump]
  by_cases hn : n = nm
  · rw [if_pos hn]
    have := hs n
    omega
  · rw [if_neg hn]
    exact hs n

theorem inv_incGlobal_incLast {s : Stats} (hs : StatsInv s) (nm : List Char) :
    StatsInv (applyEvent (applyEvent s (.incGlobal nm)) (.incLastRevision nm)) := by
  intro n
  simp only [applyEvent, bump]
  by_cases hn : n = nm
  · rw [if_pos hn, if_pos hn]
    have := hs n
    omega
  · rw [if_neg hn, if_neg hn]
    exact hs n

theorem inv_incRevisionsAnalyzed {s : Stats} (hs : StatsInv s) :
    StatsInv (applyEvent s .incRevisionsAnalyzed) := by
  intro n
  simpa [applyEvent] using hs n

theorem inv_incPagesAnalyzed {s : Stats} (hs : StatsInv s) :
    StatsInv (applyEvent s .incPagesAnalyzed) := by
  intro n
  simpa [applyEvent] using hs n

/-- A well-shaped event list keeps the invariant at every prefix. -/
theorem foldl_take_inv : ∀ {evs : List StatsEvent}, EventsOK evs →
    ∀ (s : Stats), StatsInv s → ∀ k,
      StatsInv (List.foldl applyEvent s (evs.take k)) := by
  intro evs hok
  induction hok with
  | nil => intro s hs k; simpa using hs
  | rev _ ih =>
    intro s hs k
    cases k with
    | zero => simpa using hs
    | succ k' =>
      rw [List.take_succ_cons, List.foldl_cons]
      exact ih _ (inv_incRevisionsAnalyzed hs) k'
  | page _ ih =>
    intro s hs k
    cases k with
    | zero => simpa using hs
    | succ k' =>
      rw [List.take_succ_cons, List.foldl_cons]
      exact ih _ (inv_incPagesAnalyzed hs) k'
  | glob nm _ ih =>
    intro s hs k
    cases k with
    | zero => simpa using hs
    | succ k' =>
      rw [List.take_succ_cons, List.foldl_cons]
      exact ih _ (inv_incGlobal hs nm) k'
  | globLast nm _ ih =>
    intro s hs k
    match k with
    | 0 => simpa using hs
    | 1 =>
      rw [List.take_succ_cons, List.take_zero, List.foldl_cons, List.foldl_nil]
      exact inv_incGlobal hs nm
    | k' + 2 =>
      rw [List.take_succ_cons, List.take_succ_cons, List.foldl_cons,
        List.foldl_cons]
      exact ih _ (inv_incGlobal_incLast hs nm) k'

/-- C7.  At every point during pipeline execution — after every
individual counter update, i.e. after every prefix of the pipeline's
event stream — `last_revision[name] ≤ global[name]` holds for every
section name, provided it held in the initial statistics. -/
theorem C7_last_revision_le_global (ext : Externals) (language : List Char)
    (only_last_revision : Bool) (dump : List MwPage) (stats0 : Stats)
    (h0 : StatsInv stats0) (k : Nat) :
    StatsInv (List.foldl applyEvent stats0
      ((extract_pages_go ext language only_last_revision dump).2.take k)) :=
  foldl_take_inv (extract_pages_go_ok ext language only_last_revision dump)
    stats0 h0 k

/-! # Witnesses -/

/-- Witness for C4 at a concrete page with three concrete revisions. -/
theorem C4_counter_consistency_witness :
    ((extract_pages sampleExternals [⟨7, 0, "T".data,
        [sampleRevision 1, sampleRevision 2, sampleRevision 3]⟩] "en".data
        initial_stats false).2.section_names.global "References".data = 3 ∧
      (extract_pages sampleExternals [⟨7, 0, "T".data,
        [sampleRevision 1, sampleRevision 2, sampleRevision 3]⟩] "en".data
        initial_stats false).2.section_names.last_revision "References".data = 1) ∧
    ((extract_pages sampleExternals [⟨7, 0, "T".data,
        [sampleRevision 1, sampleRevision 2, sampleRevision 3]⟩] "en".data
        initial_stats true).2.performance.revisions_analyzed = 1 ∧
      (extract_pages sampleExternals [⟨7, 0, "T".data,
        [sampleRevision 1, sampleRevision 2, sampleRevision 3]⟩] "en".data
        initial_stats true).2.performance.pages_analyzed = 1) :=
  C4_counter_consistency sampleExternals "en".data 7 "T".data
    (sampleRevision 1) (sampleRevision 2) (sampleRevision 3)
    sampleSection sampleSection sampleSection rfl rfl rfl rfl rfl rfl (by decide)

/-- Witness for C5 at a concrete configuration and an empty cache. -/
theorem C5_is_bibliography_cutoff_witness :
    (is_bibliography sampleExternals "References".data "en".data 91 = true ↔
      91 ≤ bestScore sampleExternals.scorer "References".data
        (sampleExternals.bibliography "en".data)) ∧
    (lru_lookup (fun q => is_bibliography sampleExternals q.1.1 q.1.2 q.2) 500 []
        (("References".data, "en".data), 91)).1 =
      is_bibliography sampleExternals "References".data "en".data 91 ∧
    CacheValid (fun q => is_bibliography sampleExternals q.1.1 q.1.2 q.2)
      (lru_lookup (fun q => is_bibliography sampleExternals q.1.1 q.1.2 q.2) 500 []
        (("References".data, "en".data), 91)).2 :=
  C5_is_bibliography_cutoff sampleExternals "References".data "en".data 91 []
    (("References".data, "en".data), 91) (by decide)
    (fun p hp => absurd hp (List.not_mem_nil p))

/-- Witness for C6 at `"10.1000/abc,,"`. -/
theorem C6_trailing_punctuation_witness :
    (read_doi (tokenize_finditer ("10.1000/abc,,".data))).1.id =
      dropTrailing isTrailPunct (read_doi_go 0 0 ("10.1000/".data)
        [(TokenKind.word, "abc".data), (TokenKind.punct, ",".data),
         (TokenKind.punct, ",".data)]).1 :=
  (C6_trailing_punctuation.1 ("10.1000/abc,,".data) ("10.1000/".data)
    [(TokenKind.word, "abc".data), (TokenKind.punct, ",".data),
     (TokenKind.punct, ",".data)] (by decide)).1

/-- Witness for C7 at a concrete dump and the initial statistics. -/
theorem C7_last_revision_le_global_witness :
    StatsInv (List.foldl applyEvent initial_stats
      ((extract_pages_go sampleExternals "en".data false
        [⟨7, 0, "T".data, [sampleRevision 1]⟩]).2.take 2)) :=
  C7_last_revision_le_global sampleExternals "en".data false
    [⟨7, 0, "T".data, [sampleRevision 1]⟩] initial_stats
    (fun _ => Nat.le_refl 0) 2

/-- Witness for C8 at `"10.1000/abcd"`. -/
theorem C8_identifier_nonempty_witness :
    (read_doi (tokenize_finditer ("10.1000/abcd".data))).1.id ≠ [] :=
  C8_identifier_nonempty ("10.1000/abcd".data) ("10.1000/".data)
    [(TokenKind.word, "abcd".data)] (by decide)

/-- Witness for C9 at `"10.1000/ "` (identifier start directly followed
by a whitespace terminator). -/
theorem C9_immediate_terminator_witness :
    read_doi (tokenize_finditer ("10.1000/ ".data)) =
      (⟨"doi".data, "10.1000/".data⟩, [(TokenKind.whitespace, " ".data)]) :=
  C9_immediate_terminator ("10.1000/ ".data) ("10.1000/".data)
    [(TokenKind.whitespace, " ".data)] (by decide)
    (Or.inr ⟨TokenKind.whitespace, " ".data, [], rfl, Or.inl rfl⟩)

end Wikidump
